import Mathlib

/-!
Verification development for the world-engine ECS core: archetype storage,
the incremental query engine, the CQL front end, and the shard iterator.
Definitions are shallow embeddings of the Go sources
(`cardinal/internal/storage/archetype.go`, the `Query` engine, the shard
iterator contract); parts of the repository whose implementation is not in
the provided sources are modelled from the specification and marked as such.
-/

namespace WorldEngine

/-- Component type identifiers: `component.IComponentType` instances are
identified by their stable integer ID assigned at registration time. -/
abbrev ComponentID := Nat

/-- Entity identifiers (`entity.Entity`), opaque 64-bit IDs. -/
abbrev Entity := Nat

/-- Modelled from the spec: the `storage.Layout` implementation is not among
the provided sources. Per the data model it is "an ordered, deduplicated set
of component-type identifiers"; `Components()` returns the identifier list
and `HasComponent` tests membership. -/
structure Layout where
  components : List ComponentID
  nodup : components.Nodup

instance : Inhabited Layout := ⟨⟨[], List.nodup_nil⟩⟩

/-- Layout.HasComponent: membership of a component id in the layout. -/
def Layout.HasComponent (l : Layout) (c : ComponentID) : Bool :=
  l.components.contains c

/-- Archetype: a collection of entities for a specific layout of components
(`index`, `entities`, `layout` fields of the Go struct). -/
structure Archetype where
  index : Nat
  entities : List Entity
  layout : Layout

instance : Inhabited Archetype := ⟨⟨0, [], default⟩⟩

/-- SwapRemove removes the entity at `entityIndex` and returns it, moving the
last entity into the vacated slot and truncating the list by one:
`removed := entities[i]; entities[i] = entities[len-1]; entities = entities[:len-1]`.
Out-of-range access (a Go panic) is modelled as `none`. -/
def Archetype.SwapRemove (a : Archetype) (entityIndex : Nat) :
    Option (Entity × Archetype) :=
  if h : entityIndex < a.entities.length then
    let n := a.entities.length
    let removed := a.entities.get ⟨entityIndex, h⟩
    let moved := a.entities.getD (n - 1) 0
    some (removed, { a with entities := (a.entities.set entityIndex moved).take (n - 1) })
  else
    none

/-- LayoutMatches returns true if the given component list matches this
archetype: the lengths must agree and every given component must be present
in the layout. -/
def Archetype.LayoutMatches (a : Archetype) (components : List ComponentID) : Bool :=
  if a.layout.components.length ≠ components.length then false
  else components.all (fun c => a.layout.HasComponent c)

/-- PushEntity adds an entity to the archetype by appending it. -/
def Archetype.PushEntity (a : Archetype) (e : Entity) : Archetype :=
  { a with entities := a.entities ++ [e] }

/-- EntityCount is `Archetype.Count`: the number of entities in the archetype. -/
def Archetype.EntityCount (a : Archetype) : Nat :=
  a.entities.length

/-- The archetype store (`archetypeStorageImpl`): a growable list of
archetypes. -/
structure ArchetypeStorage where
  archs : List Archetype

/-- PushArchetype appends a fresh archetype (with the given index field, an
empty entity list and the given layout) at the end of the store. -/
def ArchetypeStorage.PushArchetype (s : ArchetypeStorage) (index : Nat)
    (layout : Layout) : ArchetypeStorage :=
  ⟨s.archs ++ [{ index := index, entities := [], layout := layout }]⟩

/-- Count returns the number of archetypes in the store. -/
def ArchetypeStorage.Count (s : ArchetypeStorage) : Nat :=
  s.archs.length

/-- Archetype returns the archetype stored at the given index; out-of-range
access (a Go panic) is modelled as `none`. -/
def ArchetypeStorage.Archetype (s : ArchetypeStorage) (index : Nat) : Option Archetype :=
  s.archs[index]?

/-- The operations that mutate the archetype store: `PushArchetype` is the
only mutating operation the accessor exposes. -/
inductive StoreOp where
  | push (index : Nat) (layout : Layout)

/-- Apply one store operation. -/
def ArchetypeStorage.applyOp (s : ArchetypeStorage) : StoreOp → ArchetypeStorage
  | .push index layout => s.PushArchetype index layout

/-- Apply a sequence of store operations in order. -/
def ArchetypeStorage.applyOps (s : ArchetypeStorage) (ops : List StoreOp) :
    ArchetypeStorage :=
  ops.foldl ArchetypeStorage.applyOp s

/-- World identifiers (`WorldId`), keys of the per-query cache map. -/
abbrev WorldId := Nat

/-- The per-(Query, World) cache: the list of matched archetype indices and
the high-water mark `seen` counting the archetypes already scanned. -/
structure Cache where
  archetypes : List Nat
  seen : Nat

/-- Modelled from the spec: `storage.Index.SearchFrom` is not among the
provided sources. Per the query-evaluation contract, only archetypes created
since the high-water mark are tested against the filter and, if matching,
appended: the search tests every archetype index from `start` up to the
store count once and yields the matching indices in order. -/
def searchFrom (f : Layout → Bool) (archs : List Archetype) (start : Nat) :
    List Nat :=
  (List.range' start (archs.length - start)).filter
    (fun i => f (archs.getD i default).layout)

/-- Number of filter tests one `SearchFrom` traversal performs: one per
archetype index at or beyond `start`. -/
def searchFromTests (archs : List Archetype) (start : Nat) : Nat :=
  archs.length - start

/-- Query: owns a layout filter and a per-world cache of matched archetypes
(the `layoutMatches` map of the Go struct). The filter is kept abstract as
its `matches(layout)` predicate. -/
structure Query where
  layoutMatches : WorldId → Option Cache
  filter : Layout → Bool

/-- NewQuery creates a new query with an empty per-world cache map. -/
def NewQuery (f : Layout → Bool) : Query :=
  ⟨fun _ => none, f⟩

/-- evaluateQuery looks up the world's cache (creating an empty one with
mark 0 when absent), appends the matching archetype indices found from the
high-water mark on, advances the mark to the store's archetype count, and
returns the cached list. The Go method mutates the cache in place, so the
updated query is returned alongside the result. -/
def Query.evaluateQuery (q : Query) (w : WorldId) (archs : List Archetype) :
    Query × List Nat :=
  let c := (q.layoutMatches w).getD ⟨[], 0⟩
  let c' : Cache := ⟨c.archetypes ++ searchFrom q.filter archs c.seen, archs.length⟩
  (⟨fun w' => if w' = w then some c' else q.layoutMatches w', q.filter⟩,
    c'.archetypes)

/-- Modelled from the spec: `storage.NewEntityIterator` is not among the
provided sources. It walks the archetypes the query selected, in cached
order, yielding one archetype's entity list per `Next` call; we model the
sequence of lists it yields. -/
def entityLists (archs : List Archetype) (result : List Nat) :
    List (List Entity) :=
  result.map (fun i => (archs.getD i default).entities)

/-- Each iterates over all entities that match the query, invoking the
callback once per entity of each iterated list in order; the callback of
this legacy engine returns no value, so iteration never stops early. We
model the visit order: the callback is applied once to each element of the
returned list, front to back. -/
def Query.Each (q : Query) (w : WorldId) (archs : List Archetype) :
    List Entity :=
  (entityLists archs (q.evaluateQuery w archs).2).flatten

/-- Count returns the number of entities that match the query: the running
sum of the lengths of the iterated entity lists. -/
def Query.Count (q : Query) (w : WorldId) (archs : List Archetype) : Nat :=
  (entityLists archs (q.evaluateQuery w archs).2).foldl
    (fun acc es => acc + es.length) 0

/-- First returns the first entity that matches the query: entry 0 of the
first iterated non-empty entity list, or `none` (Go `ok = false`) when every
iterated list is empty. -/
def Query.First (q : Query) (w : WorldId) (archs : List Archetype) :
    Option Entity :=
  match (entityLists archs (q.evaluateQuery w archs).2).find?
      (fun es => !es.isEmpty) with
  | some es => es.head?
  | none => none

/-- Modelled from the spec: the bool-returning search callback contract of
the current engine (`cardinal.NewSearch(...).Each`) is documented in the
provided sources but its implementation is not among them. Per the contract,
the search visits the matching entities in order, a `true` return continues
the iteration, and a `false` return stops it early without reporting an
error. The result carries the visited entities and the non-error outcome. -/
def searchEach (cb : Entity → Bool) : List Entity → Except String (List Entity)
  | [] => .ok []
  | e :: es =>
    if cb e then
      match searchEach cb es with
      | .ok visited => .ok (e :: visited)
      | .error err => .error err
    else .ok [e]

/-- CQL filter trees: the two call-form predicates over component names, and
the three logical operators. -/
inductive CqlFilter where
  | exact (cs : List String)
  | contains (cs : List String)
  | not (f : CqlFilter)
  | and (f g : CqlFilter)
  | or (f g : CqlFilter)
deriving DecidableEq

/-- CQL tokens: `EXACT(...)` and `CONTAINS(...)` calls, `!`, `&`, `|`, and
parentheses. -/
inductive CqlTok where
  | callExact (cs : List String)
  | callContains (cs : List String)
  | bang
  | amp
  | pipe
  | lparen
  | rparen
deriving DecidableEq

mutual

/-- Modelled from the spec: the CQL compiler is not among the provided
sources. A primary is a call token, a `!`-prefixed primary, or a
parenthesized expression. Recursion is fueled; the fuel only ever exceeds
the call depth on the inputs we consider. -/
def cqlPrim : Nat → List CqlTok → Option (CqlFilter × List CqlTok)
  | 0, _ => none
  | fuel + 1, ts =>
    match ts with
    | .callExact cs :: rest => some (.exact cs, rest)
    | .callContains cs :: rest => some (.contains cs, rest)
    | .bang :: rest =>
      match cqlPrim fuel rest with
      | some (f, rest') => some (.not f, rest')
      | none => none
    | .lparen :: rest =>
      match cqlExpr fuel rest with
      | some (f, .rparen :: rest') => some (f, rest')
      | _ => none
    | _ => none

/-- Modelled from the spec: the operator loop folds a flat sequence of
`&`/`|` tokens left to right over the accumulated filter — the operators
carry no relative precedence. -/
def cqlOps : Nat → CqlFilter → List CqlTok → Option (CqlFilter × List CqlTok)
  | 0, _, _ => none
  | fuel + 1, acc, ts =>
    match ts with
    | .amp :: rest =>
      match cqlPrim fuel rest with
      | some (g, rest') => cqlOps fuel (.and acc g) rest'
      | none => none
    | .pipe :: rest =>
      match cqlPrim fuel rest with
      | some (g, rest') => cqlOps fuel (.or acc g) rest'
      | none => none
    | _ => some (acc, ts)

/-- Modelled from the spec: an expression is a primary followed by the
left-to-right operator fold. -/
def cqlExpr : Nat → List CqlTok → Option (CqlFilter × List CqlTok)
  | 0, _ => none
  | fuel + 1, ts =>
    match cqlPrim fuel ts with
    | some (f, rest) => cqlOps fuel f rest
    | none => none

end

/-- Modelled from the spec: the CQL compiler parses a whole token stream
into a filter tree, rejecting trailing tokens. The fuel bound dominates the
parser's call depth, which consumes at least one token every two nested
calls. -/
def cqlCompile (ts : List CqlTok) : Option CqlFilter :=
  match cqlExpr (2 * ts.length + 4) ts with
  | some (f, []) => some f
  | _ => none

/-- Fully parenthesized printing of a filter as a CQL token stream:
composites are wrapped in parentheses, so the printed form is a primary. -/
def cqlPrint : CqlFilter → List CqlTok
  | .exact cs => [.callExact cs]
  | .contains cs => [.callContains cs]
  | .not f => .bang :: cqlPrint f
  | .and f g => .lparen :: (cqlPrint f ++ .amp :: (cqlPrint g ++ [.rparen]))
  | .or f g => .lparen :: (cqlPrint f ++ .pipe :: (cqlPrint g ++ [.rparen]))

/-- Fuel sufficient to parse the printed form of a filter. -/
def cqlNeed : CqlFilter → Nat
  | .exact _ => 1
  | .contains _ => 1
  | .not f => cqlNeed f + 1
  | .and f g => cqlNeed f + cqlNeed g + 4
  | .or f g => cqlNeed f + cqlNeed g + 4

/-- A transaction entry on the wire (`shard.TxData`): the MessageID the
entry declares and the opaque signed transaction payload. -/
structure TxData where
  txId : Nat
  body : Nat
deriving DecidableEq

/-- One epoch of the remote transaction feed (`shard.Epoch`): the epoch
number, its unix timestamp and its transaction entries. -/
structure Epoch where
  epoch : Nat
  unixTimestamp : Nat
  txs : List TxData
deriving DecidableEq

/-- The errors the shard iterator reports: the invalid-range usage error
("first number in range must be less than the second"), the unknown-message
error naming the offending MessageID ("queried message with ID %d, but it
does not exist in Cardinal"), and a propagated callback error. -/
inductive IterError where
  | usageRange
  | unknownMessage (id : Nat)
  | callbackErr (msg : String)
deriving DecidableEq

/-- One decoded entry of a callback batch: the MessageID and the decoded
transaction payload. -/
abbrev TxBatchEntry := Nat × Nat

/-- Modelled from the spec: the iterator implementation is not among the
provided sources (only its tests are). Decoding one epoch's transactions
looks every declared MessageID up in the Message Registry; an unrecognized
MessageID fails immediately with an error naming the offending ID. -/
def decodeEpoch (lookup : Nat → Option Nat) :
    List TxData → Except IterError (List TxBatchEntry)
  | [] => .ok []
  | t :: ts =>
    match lookup t.txId with
    | none => .error (.unknownMessage t.txId)
    | some _ =>
      match decodeEpoch lookup ts with
      | .ok batch => .ok ((t.txId, t.body) :: batch)
      | .error e => .error e

/-- How processing one page of epochs ended: ready for the next page, halted
at the stop boundary, or failed with an error. -/
inductive PageEnd where
  | next
  | halt
  | fail (e : IterError)
deriving DecidableEq

/-- Result of processing one page: how it ended plus the callback
invocations it made (decoded batch, epoch number, epoch timestamp), in
order. -/
structure PageRes where
  status : PageEnd
  calls : List (List TxBatchEntry × Nat × Nat)

/-- Stop-boundary test: whether the epoch number is at or beyond the
supplied stop tick. -/
def stopHit : Option Nat → Nat → Bool
  | some s, e => decide (s ≤ e)
  | none, _ => false

/-- Modelled from the spec and the iterator tests: process one page's epochs
in order. Reaching an epoch whose number is at or beyond the stop tick ends
the iteration before that epoch is decoded or its callback invoked (the
stop-range test observes exactly one callback for the epoch feed [12, 20]
with stop tick 15). Otherwise the epoch is decoded — an unknown MessageID is
fatal — and the callback is invoked once with the decoded batch, the epoch
number and the epoch timestamp; a callback error aborts the iteration. -/
def runPage (lookup : Nat → Option Nat)
    (cb : List TxBatchEntry → Nat → Nat → Except String Unit)
    (stop : Option Nat) : List Epoch → PageRes
  | [] => ⟨.next, []⟩
  | ep :: es =>
    if stopHit stop ep.epoch then ⟨.halt, []⟩
    else
      match decodeEpoch lookup ep.txs with
      | .error e => ⟨.fail e, []⟩
      | .ok batch =>
        match cb batch ep.epoch ep.unixTimestamp with
        | .error m => ⟨.fail (.callbackErr m), [(batch, ep.epoch, ep.unixTimestamp)]⟩
        | .ok _ =>
          let r := runPage lookup cb stop es
          ⟨r.status, (batch, ep.epoch, ep.unixTimestamp) :: r.calls⟩

/-- Modelled from the spec: page through the feed responses in order,
threading the continuation automatically; a halt or failure stops fetching,
and exhausting the feed ends the run without error. Returns the final
result, the callback invocations, and the number of feed requests made. -/
def runPages (lookup : Nat → Option Nat)
    (cb : List TxBatchEntry → Nat → Nat → Except String Unit)
    (stop : Option Nat) :
    List (List Epoch) →
      Except IterError Unit × List (List TxBatchEntry × Nat × Nat) × Nat
  | [] => (.ok (), [], 0)
  | p :: ps =>
    let r := runPage lookup cb stop p
    match r.status with
    | .fail e => (.error e, r.calls, 1)
    | .halt => (.ok (), r.calls, 1)
    | .next =>
      let rest := runPages lookup cb stop ps
      (rest.1, r.calls ++ rest.2.1, rest.2.2 + 1)

/-- Outcome of a full iterator run: the result, the callback invocations in
order, the number of feed requests made, and the tick encoded in the first
request's page key (`none` when no request was made; an empty ranges list
requests the feed from the beginning, tick 0). -/
structure IterOutcome where
  result : Except IterError Unit
  calls : List (List TxBatchEntry × Nat × Nat)
  pagesFetched : Nat
  firstKey : Option Nat

/-- Modelled from the spec and tests: `iterator.Each(callback, ranges...)`.
With exactly two range values the start must be strictly below the stop;
violating that returns the usage error before any feed request. Otherwise
the feed is paged through starting from the start tick (encoded in the first
request's page key), stopping at the stop boundary when two range values are
supplied and at feed exhaustion otherwise. -/
def iterEach (lookup : Nat → Option Nat)
    (cb : List TxBatchEntry → Nat → Nat → Except String Unit)
    (pages : List (List Epoch)) (ranges : List Nat) : IterOutcome :=
  match ranges with
  | [] =>
    let r := runPages lookup cb none pages
    ⟨r.1, r.2.1, r.2.2, some 0⟩
  | [a] =>
    let r := runPages lookup cb none pages
    ⟨r.1, r.2.1, r.2.2, some a⟩
  | [a, b] =>
    if b ≤ a then ⟨.error .usageRange, [], 0, none⟩
    else
      let r := runPages lookup cb (some b) pages
      ⟨r.1, r.2.1, r.2.2, some a⟩
  | a :: _ :: _ :: _ =>
    let r := runPages lookup cb none pages
    ⟨r.1, r.2.1, r.2.2, some a⟩

/-- The Message Registry lookup of the iterator tests: only MessageID 10
(the `foo` message) is registered. -/
def lookupEx : Nat → Option Nat :=
  fun id => if id = 10 then some 10 else none

/-- A callback that always succeeds, as in the stop-range test. -/
def cbEx : List TxBatchEntry → Nat → Nat → Except String Unit :=
  fun _ _ _ => .ok ()

/-- The feed of the stop-range test: one page holding an epoch numbered 12
(timestamp 15, one `foo` transaction) and an epoch numbered 20. -/
def pagesEx : List (List Epoch) :=
  [[⟨12, 15, [⟨10, 3⟩]⟩, ⟨20, 0, []⟩]]

section Theorems

/-- Helper: the last element of a nonempty list as a `getD`. -/
theorem getD_last_of_lt {l : List Entity} (h : 0 < l.length) :
    l.getD (l.length - 1) 0 = l.get ⟨l.length - 1, Nat.sub_lt h Nat.one_pos⟩ := by
  rw [List.getD_eq_getElem?_getD, List.getElem?_eq_getElem (Nat.sub_lt h Nat.one_pos)]
  rfl

/-- Claim C4: for an archetype with `n ≥ 1` entities and `i < n`,
`SwapRemove i` returns the entity previously at slot `i`; afterwards the
entity list has length `n - 1`, the entity previously at slot `n - 1`
occupies slot `i` (when `i < n - 1`), and every other slot is unchanged.
`PushEntity` appends the given entity at the end, increasing the length by
one. -/
theorem archetype_swap_remove_push (a : Archetype) (i : Nat)
    (h : i < a.entities.length) :
    ∃ a' : Archetype,
      a.SwapRemove i = some (a.entities.getD i 0, a')
      ∧ a'.entities.length = a.entities.length - 1
      ∧ (i < a.entities.length - 1 →
          a'.entities.getD i 0 = a.entities.getD (a.entities.length - 1) 0)
      ∧ (∀ j, j < a.entities.length - 1 → j ≠ i →
          a'.entities.getD j 0 = a.entities.getD j 0)
      ∧ (∀ e : Entity, (a.PushEntity e).entities = a.entities ++ [e]
          ∧ (a.PushEntity e).entities.length = a.entities.length + 1) := by
  refine ⟨⟨a.index,
      (a.entities.set i (a.entities.getD (a.entities.length - 1) 0)).take
        (a.entities.length - 1), a.layout⟩, ?_, ?_, ?_, ?_, ?_⟩
  · simp [Archetype.SwapRemove, dif_pos h, List.getD_eq_getElem?_getD,
      List.getElem?_eq_getElem h]
  · simp [Nat.min_eq_left (Nat.le_of_lt (Nat.sub_lt (Nat.lt_of_le_of_lt (Nat.zero_le i) h) Nat.one_pos))]
  · intro hi
    simp only [List.getD_eq_getElem?_getD, List.getElem?_take, hi, if_pos]
    rw [List.getElem?_set, if_pos rfl, if_pos h]
    rfl
  · intro j hj hne
    simp only [List.getD_eq_getElem?_getD, List.getElem?_take, hj, if_pos]
    rw [List.getElem?_set, if_neg (fun hh => hne (hh.symm))]
  · intro e
    exact ⟨rfl, by simp [Archetype.PushEntity]⟩

/-- Witness for C4 at a concrete archetype `[10, 11, 12]`, removing slot 0. -/
theorem archetype_swap_remove_push_inst :
    ∃ a' : Archetype,
      (Archetype.mk 0 [10, 11, 12] default).SwapRemove 0 = some (10, a')
      ∧ a'.entities.length = 2
      ∧ (0 < 2 → a'.entities.getD 0 0 = 12)
      ∧ (∀ j, j < 2 → j ≠ 0 →
          a'.entities.getD j 0 = [10, 11, 12].getD j 0)
      ∧ (∀ e : Entity,
          ((Archetype.mk 0 [10, 11, 12] default).PushEntity e).entities = [10, 11, 12] ++ [e]
          ∧ ((Archetype.mk 0 [10, 11, 12] default).PushEntity e).entities.length = 4) := by
  have := archetype_swap_remove_push (Archetype.mk 0 [10, 11, 12] default) 0 (by decide)
  simpa using this

/-- An archetype whose layout holds the two component ids 0 and 1 (think
Health and Attack), used as a concrete test subject. -/
def archHealthAttack : Archetype :=
  ⟨0, [], ⟨[0, 1], by decide⟩⟩

/-- Claim C5 counterexample: `LayoutMatches` is not equivalent to set
equality on lists with repeated component types. For the layout `{0, 1}` and
the list `[0, 0]`, `LayoutMatches` returns `true` (the lengths agree and
every listed component is present) although the sets `{0}` and `{0, 1}`
differ. -/
theorem layout_matches_dup_counterexample :
    ¬ (archHealthAttack.LayoutMatches [0, 0] = true ↔
        ([0, 0] : List ComponentID).toFinset =
          archHealthAttack.layout.components.toFinset) := by
  decide

/-- Claim C5 (amended): for every archetype and every DUPLICATE-FREE list of
component types `cs`, `LayoutMatches cs` returns true iff the archetype's
layout, viewed as a set of component types, is set-equal to the set of
component types in `cs`. (The original claim extended this to lists with
repeated component types, which the length-plus-membership check does not
support; see the counterexample.) -/
theorem layout_matches_exact_set_eq (a : Archetype) (cs : List ComponentID)
    (hcs : cs.Nodup) :
    a.LayoutMatches cs = true ↔
      (∀ c, c ∈ cs ↔ c ∈ a.layout.components) := by
  have hnd := a.layout.nodup
  constructor
  · intro hm
    rw [Archetype.LayoutMatches] at hm
    by_cases hlen : a.layout.components.length ≠ cs.length
    · rw [if_pos hlen] at hm
      exact absurd hm (by simp)
    · rw [if_neg hlen] at hm
      push_neg at hlen
      have hsub : cs.toFinset ⊆ a.layout.components.toFinset := by
        intro c hc
        rw [List.mem_toFinset] at hc ⊢
        have hx := List.all_eq_true.mp hm c hc
        simpa [Layout.HasComponent] using hx
      have hcards : a.layout.components.toFinset.card ≤ cs.toFinset.card := by
        rw [List.toFinset_card_of_nodup hcs, List.toFinset_card_of_nodup hnd]
        omega
      have hset := Finset.eq_of_subset_of_card_le hsub hcards
      intro c
      constructor
      · intro hc
        have : c ∈ a.layout.components.toFinset := hset ▸ List.mem_toFinset.mpr hc
        exact List.mem_toFinset.mp this
      · intro hc
        have : c ∈ cs.toFinset := hset.symm ▸ List.mem_toFinset.mpr hc
        exact List.mem_toFinset.mp this
  · intro hmem
    have hperm : cs.Perm a.layout.components :=
      (List.perm_ext_iff_of_nodup hcs hnd).mpr hmem
    have hlen := hperm.length_eq
    rw [Archetype.LayoutMatches, if_neg (by omega)]
    rw [List.all_eq_true]
    intro c hc
    have hx := (hmem c).mp hc
    simpa [Layout.HasComponent] using hx

/-- Witness for the amended C5 at the concrete layout `{0, 1}` and the
duplicate-free list `[1, 0]`. -/
theorem layout_matches_exact_set_eq_inst :
    ([1, 0] : List ComponentID).Nodup ∧
      (archHealthAttack.LayoutMatches [1, 0] = true ↔
        ∀ c, c ∈ ([1, 0] : List ComponentID) ↔
          c ∈ archHealthAttack.layout.components) :=
  ⟨by decide, layout_matches_exact_set_eq archHealthAttack [1, 0] (by decide)⟩

/-- Helper: the store count never decreases along any operation sequence. -/
theorem count_le_applyOps (s : ArchetypeStorage) (ops : List StoreOp) :
    s.Count ≤ (s.applyOps ops).Count := by
  induction ops generalizing s with
  | nil => exact Nat.le_refl _
  | cons op rest ih =>
    have h1 : s.Count ≤ (s.applyOp op).Count := by
      cases op
      simp [ArchetypeStorage.applyOp, ArchetypeStorage.PushArchetype,
        ArchetypeStorage.Count]
    exact Nat.le_trans h1 (ih (s.applyOp op))

/-- Helper: an index valid before a sequence of operations still returns the
same archetype after it. -/
theorem archetype_stable_applyOps (s : ArchetypeStorage) (ops : List StoreOp)
    (i : Nat) (hi : i < s.Count) :
    (s.applyOps ops).Archetype i = s.Archetype i := by
  induction ops generalizing s with
  | nil => rfl
  | cons op rest ih =>
    have h1 : (s.applyOp op).Archetype i = s.Archetype i := by
      cases op
      simp only [ArchetypeStorage.applyOp, ArchetypeStorage.PushArchetype,
        ArchetypeStorage.Archetype]
      rw [List.getElem?_append, if_pos (show i < s.archs.length from hi)]
    have hi' : i < (s.applyOp op).Count := by
      have hc1 : (s.applyOp op).Count = s.Count + 1 := by
        cases op
        simp [ArchetypeStorage.applyOp, ArchetypeStorage.PushArchetype,
          ArchetypeStorage.Count]
      omega
    calc ((s.applyOp op).applyOps rest).Archetype i
        = (s.applyOp op).Archetype i := ih (s.applyOp op) hi'
      _ = s.Archetype i := h1

/-- Claim C6: the archetype store is append-only. Along every sequence of
store operations the count never decreases, each `PushArchetype` appends one
archetype at the end (count grows by exactly one), and every index valid
before a sequence of operations afterwards returns the identical archetype
(same layout and index field). -/
theorem archetype_store_append_only (s : ArchetypeStorage) (ops : List StoreOp)
    (idx : Nat) (ly : Layout) (i : Nat) (hi : i < s.Count) :
    s.Count ≤ (s.applyOps ops).Count
    ∧ (s.PushArchetype idx ly).Count = s.Count + 1
    ∧ (s.PushArchetype idx ly).archs = s.archs ++ [⟨idx, [], ly⟩]
    ∧ (s.applyOps ops).Archetype i = s.Archetype i := by
  refine ⟨count_le_applyOps s ops, ?_, rfl, archetype_stable_applyOps s ops i hi⟩
  simp [ArchetypeStorage.PushArchetype, ArchetypeStorage.Count]

/-- Witness for C6 on a one-archetype store, pushing one more archetype. -/
theorem archetype_store_append_only_inst :
    0 < (ArchetypeStorage.mk [archHealthAttack]).Count
    ∧ ((ArchetypeStorage.mk [archHealthAttack]).Count ≤
        ((ArchetypeStorage.mk [archHealthAttack]).applyOps [.push 1 default]).Count
      ∧ ((ArchetypeStorage.mk [archHealthAttack]).PushArchetype 5 default).Count =
          (ArchetypeStorage.mk [archHealthAttack]).Count + 1
      ∧ ((ArchetypeStorage.mk [archHealthAttack]).PushArchetype 5 default).archs =
          [archHealthAttack] ++ [⟨5, [], default⟩]
      ∧ ((ArchetypeStorage.mk [archHealthAttack]).applyOps [.push 1 default]).Archetype 0 =
          (ArchetypeStorage.mk [archHealthAttack]).Archetype 0) :=
  ⟨by decide,
    archetype_store_append_only (ArchetypeStorage.mk [archHealthAttack])
      [.push 1 default] 5 default 0 (by decide)⟩

/-- Claim C1: each evaluation of a query against a world tests only the
archetype indices at or beyond the cache's high-water mark, appends exactly
those of them that match the filter to the cached list, then sets the mark
to the store's archetype count; a second evaluation with no archetype
created in between performs zero new filter tests, leaves the mark unchanged
and returns a result identical to the first evaluation's. -/
theorem query_evaluate_incremental_cache (q : Query) (w : WorldId)
    (archs : List Archetype) :
    ((q.evaluateQuery w archs).2 =
        ((q.layoutMatches w).getD ⟨[], 0⟩).archetypes ++
          searchFrom q.filter archs ((q.layoutMatches w).getD ⟨[], 0⟩).seen)
    ∧ (∀ i, i ∈ searchFrom q.filter archs ((q.layoutMatches w).getD ⟨[], 0⟩).seen ↔
        (((q.layoutMatches w).getD ⟨[], 0⟩).seen ≤ i ∧ i < archs.length
          ∧ q.filter (archs.getD i default).layout = true))
    ∧ ((((q.evaluateQuery w archs).1.layoutMatches w).getD ⟨[], 0⟩).seen
        = archs.length)
    ∧ searchFromTests archs
        ((((q.evaluateQuery w archs).1.layoutMatches w).getD ⟨[], 0⟩).seen) = 0
    ∧ ((((q.evaluateQuery w archs).1.evaluateQuery w archs).1.layoutMatches w).getD
          ⟨[], 0⟩).seen
        = (((q.evaluateQuery w archs).1.layoutMatches w).getD ⟨[], 0⟩).seen
    ∧ ((q.evaluateQuery w archs).1.evaluateQuery w archs).2
        = (q.evaluateQuery w archs).2 := by
  refine ⟨rfl, ?_, ?_, ?_, ?_, ?_⟩
  · intro i
    rw [searchFrom, List.mem_filter, List.mem_range'_1]
    constructor
    · rintro ⟨⟨h1, h2⟩, h3⟩
      exact ⟨h1, by omega, h3⟩
    · rintro ⟨h1, h2, h3⟩
      exact ⟨⟨h1, by omega⟩, h3⟩
  · simp [Query.evaluateQuery]
  · simp [Query.evaluateQuery, searchFromTests]
  · simp [Query.evaluateQuery]
  · simp [Query.evaluateQuery, searchFrom, Nat.sub_self]

/-- Helper: selecting entry 0 of the first non-empty list equals the head of
the concatenation. -/
theorem find_nonempty_head_eq_flatten_head (ls : List (List Entity)) :
    (match ls.find? (fun es => !es.isEmpty) with
      | some es => es.head?
      | none => none) = ls.flatten.head? := by
  induction ls with
  | nil => rfl
  | cons es rest ih =>
    cases es with
    | nil => simpa using ih
    | cons e es' => simp

/-- Helper: the running length sum over a list of lists equals the length of
their concatenation. -/
theorem foldl_length_eq_flatten_length (ls : List (List Entity)) (acc : Nat) :
    ls.foldl (fun acc es => acc + es.length) acc = acc + ls.flatten.length := by
  induction ls generalizing acc with
  | nil => simp
  | cons es rest ih =>
    simp [ih, Nat.add_assoc]

/-- Claim C10: `First` returns no entry exactly when `Count` is zero, and
whenever it returns an entry it is entry 0 of the first matching archetype
(in cached order) with a non-empty entity list — the entity an uninterrupted
`Each` visits first. -/
theorem query_first_count_each_consistent (q : Query) (w : WorldId)
    (archs : List Archetype) :
    (q.First w archs = none ↔ q.Count w archs = 0)
    ∧ q.First w archs = (q.Each w archs).head? := by
  have hfirst : q.First w archs =
      (entityLists archs (q.evaluateQuery w archs).2).flatten.head? := by
    rw [Query.First]
    exact find_nonempty_head_eq_flatten_head _
  have hcount : q.Count w archs =
      (entityLists archs (q.evaluateQuery w archs).2).flatten.length := by
    rw [Query.Count, foldl_length_eq_flatten_length]
    omega
  refine ⟨?_, hfirst⟩
  rw [hfirst, hcount]
  cases (entityLists archs (q.evaluateQuery w archs).2).flatten with
  | nil => simp
  | cons e es => simp

/-- Claim C2: the search visits the matching entities in order; if the
callback returns `false` for some visited entity, the iteration stops at
that entity with no further entity visited, and the early stop is not an
error; when the callback keeps returning `true`, every matching entity is
visited exactly once. -/
theorem search_each_early_stop (cb : Entity → Bool) (xs ys : List Entity)
    (e : Entity) (hx : ∀ x ∈ xs, cb x = true) (he : cb e = false) :
    searchEach cb (xs ++ e :: ys) = .ok (xs ++ [e])
    ∧ ∀ es : List Entity, (∀ x ∈ es, cb x = true) →
        searchEach cb es = .ok es := by
  have hall : ∀ es : List Entity, (∀ x ∈ es, cb x = true) →
      searchEach cb es = .ok es := by
    intro es hes
    induction es with
    | nil => rfl
    | cons a rest ih =>
      rw [searchEach, if_pos (hes a (by simp)),
        ih (fun x hxm => hes x (by simp [hxm]))]
  refine ⟨?_, hall⟩
  induction xs with
  | nil => simp [searchEach, he]
  | cons a rest ih =>
    rw [List.cons_append, searchEach, if_pos (hx a (by simp)),
      ih (fun x hxm => hx x (by simp [hxm]))]
    rfl

/-- Witness for C2: with the callback `n == 0` on the entity list
`[0, 1, 2]`, iteration visits `0`, stops at `1` without error, and never
visits `2`; with all-true callbacks every entity is visited once. -/
theorem search_each_early_stop_inst :
    (∀ x ∈ ([0] : List Entity), (x == 0) = true) ∧ ((1 : Entity) == 0) = false
    ∧ (searchEach (fun n => n == 0) ([0] ++ 1 :: [2]) = .ok ([0] ++ [1])
      ∧ ∀ es : List Entity, (∀ x ∈ es, (x == 0) = true) →
          searchEach (fun n => n == 0) es = .ok es) :=
  ⟨by decide, by decide,
    search_each_early_stop (fun n => n == 0) [0] [2] 1 (by decide) (by decide)⟩

/-- Helper: the parenthesized-primary case of `cqlPrim`, restated as a
standalone rewrite. -/
theorem cqlPrim_lp (fuel : Nat) (ts : List CqlTok) :
    cqlPrim (fuel + 1) (.lparen :: ts)
      = match cqlExpr fuel ts with
        | some (f, .rparen :: rest') => some (f, rest')
        | _ => none := rfl

/-- Helper: parsing the fully parenthesized printed form of a filter, as a
primary, recovers the filter and leaves the rest of the stream untouched. -/
theorem cqlPrim_print (f : CqlFilter) : ∀ (rest : List CqlTok) (fuel : Nat),
    cqlNeed f ≤ fuel → cqlPrim fuel (cqlPrint f ++ rest) = some (f, rest) := by
  induction f with
  | exact cs =>
    intro rest fuel h
    obtain ⟨k, rfl⟩ : ∃ k, fuel = k + 1 := ⟨fuel - 1, by simp [cqlNeed] at h; omega⟩
    simp [cqlPrim, cqlPrint]
  | contains cs =>
    intro rest fuel h
    obtain ⟨k, rfl⟩ : ∃ k, fuel = k + 1 := ⟨fuel - 1, by simp [cqlNeed] at h; omega⟩
    simp [cqlPrim, cqlPrint]
  | not f ih =>
    intro rest fuel h
    simp only [cqlNeed] at h
    obtain ⟨k, rfl⟩ : ∃ k, fuel = k + 1 := ⟨fuel - 1, by omega⟩
    simp only [cqlPrint, List.cons_append, cqlPrim]
    rw [ih rest k (by omega)]
  | and f g ihf ihg =>
    intro rest fuel h
    simp only [cqlNeed] at h
    obtain ⟨k, rfl⟩ : ∃ k, fuel = k + 4 := ⟨fuel - 4, by omega⟩
    have hf : cqlPrim (k + 2)
        (cqlPrint f ++ (.amp :: (cqlPrint g ++ (.rparen :: rest))))
        = some (f, .amp :: (cqlPrint g ++ (.rparen :: rest))) :=
      ihf _ _ (by omega)
    have hg : cqlPrim (k + 1) (cqlPrint g ++ (.rparen :: rest))
        = some (g, .rparen :: rest) :=
      ihg _ _ (by omega)
    have hts : cqlPrint (.and f g) ++ rest
        = .lparen :: (cqlPrint f ++ (.amp :: (cqlPrint g ++ (.rparen :: rest)))) := by
      simp [cqlPrint]
    rw [hts]
    simp only [cqlPrim_lp, cqlExpr, hf, cqlOps, hg]
  | or f g ihf ihg =>
    intro rest fuel h
    simp only [cqlNeed] at h
    obtain ⟨k, rfl⟩ : ∃ k, fuel = k + 4 := ⟨fuel - 4, by omega⟩
    have hf : cqlPrim (k + 2)
        (cqlPrint f ++ (.pipe :: (cqlPrint g ++ (.rparen :: rest))))
        = some (f, .pipe :: (cqlPrint g ++ (.rparen :: rest))) :=
      ihf _ _ (by omega)
    have hg : cqlPrim (k + 1) (cqlPrint g ++ (.rparen :: rest))
        = some (g, .rparen :: rest) :=
      ihg _ _ (by omega)
    have hts : cqlPrint (.or f g) ++ rest
        = .lparen :: (cqlPrint f ++ (.pipe :: (cqlPrint g ++ (.rparen :: rest)))) := by
      simp [cqlPrint]
    rw [hts]
    simp only [cqlPrim_lp, cqlExpr, hf, cqlOps, hg]

/-- Helper: the expression `A & B | C` folds left to right into
`Or(And(A,B),C)`. -/
theorem cqlExpr_amp_pipe (A B C : CqlFilter) (fuel : Nat)
    (h : cqlNeed A + cqlNeed B + cqlNeed C + 4 ≤ fuel) :
    cqlExpr fuel (cqlPrint A ++ .amp :: (cqlPrint B ++ .pipe :: cqlPrint C))
      = some (.or (.and A B) C, []) := by
  obtain ⟨k, rfl⟩ : ∃ k, fuel = k + 4 := ⟨fuel - 4, by omega⟩
  have hA : cqlPrim (k + 3)
      (cqlPrint A ++ (.amp :: (cqlPrint B ++ .pipe :: cqlPrint C)))
      = some (A, .amp :: (cqlPrint B ++ .pipe :: cqlPrint C)) :=
    cqlPrim_print A _ _ (by omega)
  have hB : cqlPrim (k + 2) (cqlPrint B ++ (.pipe :: cqlPrint C))
      = some (B, .pipe :: cqlPrint C) :=
    cqlPrim_print B _ _ (by omega)
  have hC : cqlPrim (k + 1) (cqlPrint C) = some (C, []) := by
    have hx := cqlPrim_print C [] (k + 1) (by omega)
    simpa using hx
  simp only [cqlExpr, hA, cqlOps, hB, hC]

/-- Helper: the expression `A | B & C` folds left to right into
`And(Or(A,B),C)`. -/
theorem cqlExpr_pipe_amp (A B C : CqlFilter) (fuel : Nat)
    (h : cqlNeed A + cqlNeed B + cqlNeed C + 4 ≤ fuel) :
    cqlExpr fuel (cqlPrint A ++ .pipe :: (cqlPrint B ++ .amp :: cqlPrint C))
      = some (.and (.or A B) C, []) := by
  obtain ⟨k, rfl⟩ : ∃ k, fuel = k + 4 := ⟨fuel - 4, by omega⟩
  have hA : cqlPrim (k + 3)
      (cqlPrint A ++ (.pipe :: (cqlPrint B ++ .amp :: cqlPrint C)))
      = some (A, .pipe :: (cqlPrint B ++ .amp :: cqlPrint C)) :=
    cqlPrim_print A _ _ (by omega)
  have hB : cqlPrim (k + 2) (cqlPrint B ++ (.amp :: cqlPrint C))
      = some (B, .amp :: cqlPrint C) :=
    cqlPrim_print B _ _ (by omega)
  have hC : cqlPrim (k + 1) (cqlPrint C) = some (C, []) := by
    have hx := cqlPrim_print C [] (k + 1) (by omega)
    simpa using hx
  simp only [cqlExpr, hA, cqlOps, hB, hC]

/-- Helper: a parenthesized subquery followed by one operator and a
subquery parses as the corresponding node. -/
theorem cqlExpr_prim_pipe (P C : CqlFilter) (fuel : Nat)
    (h : cqlNeed P + cqlNeed C + 3 ≤ fuel) :
    cqlExpr fuel (cqlPrint P ++ .pipe :: cqlPrint C) = some (.or P C, []) := by
  obtain ⟨k, rfl⟩ : ∃ k, fuel = k + 3 := ⟨fuel - 3, by omega⟩
  have hP : cqlPrim (k + 2) (cqlPrint P ++ (.pipe :: cqlPrint C))
      = some (P, .pipe :: cqlPrint C) :=
    cqlPrim_print P _ _ (by omega)
  have hC : cqlPrim (k + 1) (cqlPrint C) = some (C, []) := by
    have hx := cqlPrim_print C [] (k + 1) (by omega)
    simpa using hx
  simp only [cqlExpr, hP, cqlOps, hC]

/-- Helper: a parenthesized subquery followed by `&` and a subquery parses
as the corresponding `And` node. -/
theorem cqlExpr_prim_amp (P C : CqlFilter) (fuel : Nat)
    (h : cqlNeed P + cqlNeed C + 3 ≤ fuel) :
    cqlExpr fuel (cqlPrint P ++ .amp :: cqlPrint C) = some (.and P C, []) := by
  obtain ⟨k, rfl⟩ : ∃ k, fuel = k + 3 := ⟨fuel - 3, by omega⟩
  have hP : cqlPrim (k + 2) (cqlPrint P ++ (.amp :: cqlPrint C))
      = some (P, .amp :: cqlPrint C) :=
    cqlPrim_print P _ _ (by omega)
  have hC : cqlPrim (k + 1) (cqlPrint C) = some (C, []) := by
    have hx := cqlPrim_print C [] (k + 1) (by omega)
    simpa using hx
  simp only [cqlExpr, hP, cqlOps, hC]

/-- Helper: the compiler fuel bound dominates the parse depth of the
printed form. -/
theorem cqlNeed_le_print (f : CqlFilter) :
    cqlNeed f ≤ 2 * (cqlPrint f).length := by
  induction f with
  | exact cs => simp [cqlNeed, cqlPrint]
  | contains cs => simp [cqlNeed, cqlPrint]
  | not f ih =>
    simp only [cqlNeed, cqlPrint, List.length_cons]
    omega
  | and f g ihf ihg =>
    simp only [cqlNeed, cqlPrint, List.length_cons, List.length_append]
    omega
  | or f g ihf ihg =>
    simp only [cqlNeed, cqlPrint, List.length_cons, List.length_append]
    omega

/-- Claim C3: CQL operators carry no relative precedence: the compiler folds
a flat `&`/`|` sequence left to right, so for all subqueries A, B, C the
text `A & B | C` compiles to the same filter tree as the explicitly
parenthesized `(A & B) | C` — namely `Or(And(A,B),C)` — and `A | B & C`
compiles to the same tree as `(A | B) & C` — namely `And(Or(A,B),C)`. -/
theorem cql_left_fold_no_precedence (A B C : CqlFilter) :
    (cqlCompile (cqlPrint A ++ .amp :: (cqlPrint B ++ .pipe :: cqlPrint C))
        = cqlCompile (cqlPrint (.and A B) ++ .pipe :: cqlPrint C)
      ∧ cqlCompile (cqlPrint A ++ .amp :: (cqlPrint B ++ .pipe :: cqlPrint C))
        = some (.or (.and A B) C))
    ∧ (cqlCompile (cqlPrint A ++ .pipe :: (cqlPrint B ++ .amp :: cqlPrint C))
        = cqlCompile (cqlPrint (.or A B) ++ .amp :: cqlPrint C)
      ∧ cqlCompile (cqlPrint A ++ .pipe :: (cqlPrint B ++ .amp :: cqlPrint C))
        = some (.and (.or A B) C)) := by
  have hA := cqlNeed_le_print A
  have hB := cqlNeed_le_print B
  have hC := cqlNeed_le_print C
  have e1 : cqlCompile (cqlPrint A ++ .amp :: (cqlPrint B ++ .pipe :: cqlPrint C))
      = some (.or (.and A B) C) := by
    have hfuel : cqlNeed A + cqlNeed B + cqlNeed C + 4 ≤
        2 * (cqlPrint A ++ .amp :: (cqlPrint B ++ .pipe :: cqlPrint C)).length + 4 := by
      simp only [List.length_append, List.length_cons]
      omega
    simp only [cqlCompile, cqlExpr_amp_pipe A B C _ hfuel]
  have e2 : cqlCompile (cqlPrint (.and A B) ++ .pipe :: cqlPrint C)
      = some (.or (.and A B) C) := by
    have hfuel : cqlNeed (.and A B) + cqlNeed C + 3 ≤
        2 * (cqlPrint (.and A B) ++ .pipe :: cqlPrint C).length + 4 := by
      have hAB := cqlNeed_le_print (.and A B)
      simp only [List.length_append, List.length_cons]
      omega
    simp only [cqlCompile, cqlExpr_prim_pipe (.and A B) C _ hfuel]
  have e3 : cqlCompile (cqlPrint A ++ .pipe :: (cqlPrint B ++ .amp :: cqlPrint C))
      = some (.and (.or A B) C) := by
    have hfuel : cqlNeed A + cqlNeed B + cqlNeed C + 4 ≤
        2 * (cqlPrint A ++ .pipe :: (cqlPrint B ++ .amp :: cqlPrint C)).length + 4 := by
      simp only [List.length_append, List.length_cons]
      omega
    simp only [cqlCompile, cqlExpr_pipe_amp A B C _ hfuel]
  have e4 : cqlCompile (cqlPrint (.or A B) ++ .amp :: cqlPrint C)
      = some (.and (.or A B) C) := by
    have hfuel : cqlNeed (.or A B) + cqlNeed C + 3 ≤
        2 * (cqlPrint (.or A B) ++ .amp :: cqlPrint C).length + 4 := by
      have hAB := cqlNeed_le_print (.or A B)
      simp only [List.length_append, List.length_cons]
      omega
    simp only [cqlCompile, cqlExpr_prim_amp (.or A B) C _ hfuel]
  exact ⟨⟨e1.trans e2.symm, e1⟩, ⟨e3.trans e4.symm, e3⟩⟩

/-- The callback invocation one epoch produces: its decoded batch, its epoch
number and its timestamp. -/
def epCall (e : Epoch) : List TxBatchEntry × Nat × Nat :=
  (e.txs.map (fun t => (t.txId, t.body)), e.epoch, e.unixTimestamp)

/-- Helper: decoding an all-known transaction list succeeds with the paired
entries. -/
theorem decodeEpoch_all_known (lookup : Nat → Option Nat) (ts : List TxData)
    (h : ∀ td ∈ ts, (lookup td.txId).isSome = true) :
    decodeEpoch lookup ts = .ok (ts.map (fun t => (t.txId, t.body))) := by
  induction ts with
  | nil => rfl
  | cons t rest ih =>
    obtain ⟨v, hv⟩ := Option.isSome_iff_exists.mp (h t (by simp))
    simp only [decodeEpoch, hv, ih (fun td hm => h td (by simp [hm])),
      List.map_cons]

/-- Helper: the first unrecognized MessageID fails the decode with an error
naming that ID. -/
theorem decodeEpoch_unknown (lookup : Nat → Option Nat) (as bs : List TxData)
    (t : TxData) (has : ∀ td ∈ as, (lookup td.txId).isSome = true)
    (ht : lookup t.txId = none) :
    decodeEpoch lookup (as ++ t :: bs) = .error (.unknownMessage t.txId) := by
  induction as with
  | nil => simp only [List.nil_append, decodeEpoch, ht]
  | cons a rest ih =>
    obtain ⟨v, hv⟩ := Option.isSome_iff_exists.mp (has a (by simp))
    simp only [List.cons_append, decodeEpoch, hv, List.append_eq,
      ih (fun td hm => has td (by simp [hm]))]

/-- Helper: a predicate that holds on all of a list takes the whole list. -/
theorem takeWhile_eq_self_of_all (p : Epoch → Bool) (l : List Epoch)
    (h : l.all p = true) : l.takeWhile p = l := by
  induction l with
  | nil => rfl
  | cons a l ih =>
    rw [List.all_cons, Bool.and_eq_true] at h
    rw [List.takeWhile_cons, h.1, ih h.2]
    simp

/-- Helper: `takeWhile` across an append splits on whether the first part
satisfies the predicate throughout. -/
theorem takeWhile_append_all (p : Epoch → Bool) (l₁ l₂ : List Epoch) :
    (l₁ ++ l₂).takeWhile p =
      if l₁.all p = true then l₁ ++ l₂.takeWhile p else l₁.takeWhile p := by
  induction l₁ with
  | nil => simp
  | cons a l ih =>
    by_cases hpa : p a = true
    · by_cases h2 : l.all p = true
      · simp [List.takeWhile_cons, hpa, ih, h2]
      · simp [List.takeWhile_cons, hpa, ih, h2]
    · have hpa' : p a = false := by
        cases hp : p a with
        | true => exact absurd hp hpa
        | false => rfl
      simp [List.takeWhile_cons, hpa']

/-- Helper: with a stop tick, processing a page of decodable epochs under a
never-failing callback invokes the callback for exactly the epochs before
the first one at or beyond the stop tick, halting there. -/
theorem runPage_known (lookup : Nat → Option Nat)
    (cb : List TxBatchEntry → Nat → Nat → Except String Unit) (s : Nat)
    (es : List Epoch)
    (hknown : ∀ e ∈ es, ∀ td ∈ e.txs, (lookup td.txId).isSome = true)
    (hcb : ∀ b e ts, cb b e ts = .ok ()) :
    runPage lookup cb (some s) es =
      ⟨if es.all (fun e => decide (e.epoch < s)) = true then .next else .halt,
        (es.takeWhile (fun e => decide (e.epoch < s))).map epCall⟩ := by
  induction es with
  | nil => simp [runPage]
  | cons ep rest ih =>
    by_cases hlt : ep.epoch < s
    · have hsh : stopHit (some s) ep.epoch = false := by
        simp only [stopHit, decide_eq_false_iff_not]
        omega
      have hdec := decodeEpoch_all_known lookup ep.txs (hknown ep (by simp))
      have ihr := ih (fun e he td htd => hknown e (by simp [he]) td htd)
      simp only [runPage, hsh, Bool.false_eq_true, if_false, hdec, hcb, ihr,
        List.takeWhile_cons, List.all_cons, hlt, decide_True, Bool.true_and,
        List.map_cons, epCall]
      simp [epCall]
    · have hsh : stopHit (some s) ep.epoch = true := by
        simp only [stopHit, decide_eq_true_eq]
        omega
      have hlt' : decide (ep.epoch < s) = false := by
        simp only [decide_eq_false_iff_not]
        omega
      simp only [runPage, hsh, if_true, List.all_cons, hlt', Bool.false_and,
        List.takeWhile_cons, List.map_nil, Bool.false_eq_true, if_false]

/-- Helper: without a stop tick, processing a page of decodable epochs under
a never-failing callback invokes the callback once per epoch. -/
theorem runPage_no_stop (lookup : Nat → Option Nat)
    (cb : List TxBatchEntry → Nat → Nat → Except String Unit)
    (es : List Epoch)
    (hknown : ∀ e ∈ es, ∀ td ∈ e.txs, (lookup td.txId).isSome = true)
    (hcb : ∀ b e ts, cb b e ts = .ok ()) :
    runPage lookup cb none es = ⟨.next, es.map epCall⟩ := by
  induction es with
  | nil => rfl
  | cons ep rest ih =>
    have hdec := decodeEpoch_all_known lookup ep.txs (hknown ep (by simp))
    have ihr := ih (fun e he td htd => hknown e (by simp [he]) td htd)
    simp only [runPage, stopHit, Bool.false_eq_true, if_false, hdec, hcb, ihr,
      List.map_cons, epCall]

/-- Helper: with a stop tick, a full run over decodable pages ends without
error after calling back for exactly the epochs strictly below the stop
tick, in feed order. -/
theorem runPages_known (lookup : Nat → Option Nat)
    (cb : List TxBatchEntry → Nat → Nat → Except String Unit) (s : Nat)
    (pages : List (List Epoch))
    (hknown : ∀ p ∈ pages, ∀ e ∈ p, ∀ td ∈ e.txs, (lookup td.txId).isSome = true)
    (hcb : ∀ b e ts, cb b e ts = .ok ()) :
    (runPages lookup cb (some s) pages).1 = .ok ()
    ∧ (runPages lookup cb (some s) pages).2.1 =
        (pages.flatten.takeWhile (fun e => decide (e.epoch < s))).map epCall := by
  induction pages with
  | nil => exact ⟨rfl, rfl⟩
  | cons p ps ih =>
    have hp := runPage_known lookup cb s p (hknown p (by simp)) hcb
    obtain ⟨ih1, ih2⟩ := ih (fun q hq => hknown q (by simp [hq]))
    by_cases hall : p.all (fun e => decide (e.epoch < s)) = true
    · constructor
      · simp only [runPages, hp, hall, if_true, ih1]
      · simp only [runPages, hp, hall, if_true, ih2, List.flatten_cons,
          takeWhile_append_all, List.map_append,
          takeWhile_eq_self_of_all _ _ hall]
    · constructor
      · simp only [runPages, hp, hall, Bool.false_eq_true, if_false]
      · simp only [runPages, hp, hall, Bool.false_eq_true, if_false,
          List.flatten_cons, takeWhile_append_all, List.map_append]

/-- Helper: without a stop tick, a full run over decodable pages ends
without error after calling back once per epoch of the whole feed. -/
theorem runPages_no_stop (lookup : Nat → Option Nat)
    (cb : List TxBatchEntry → Nat → Nat → Except String Unit)
    (pages : List (List Epoch))
    (hknown : ∀ p ∈ pages, ∀ e ∈ p, ∀ td ∈ e.txs, (lookup td.txId).isSome = true)
    (hcb : ∀ b e ts, cb b e ts = .ok ()) :
    (runPages lookup cb none pages).1 = .ok ()
    ∧ (runPages lookup cb none pages).2.1 = pages.flatten.map epCall := by
  induction pages with
  | nil => exact ⟨rfl, rfl⟩
  | cons p ps ih =>
    have hp := runPage_no_stop lookup cb p (hknown p (by simp)) hcb
    obtain ⟨ih1, ih2⟩ := ih (fun q hq => hknown q (by simp [hq]))
    exact ⟨by simp only [runPages, hp, ih1],
      by simp only [runPages, hp, ih2, List.flatten_cons, List.map_append]⟩

/-- Helper: a page whose epochs decode fine until one epoch carries an
unrecognized MessageID fails at that epoch with the identifying error,
after calling back only for the earlier epochs. -/
theorem runPage_unknown (lookup : Nat → Option Nat)
    (cb : List TxBatchEntry → Nat → Nat → Except String Unit)
    (pre : List Epoch) (ep : Epoch) (post : List Epoch)
    (as bs : List TxData) (t : TxData)
    (hpre : ∀ e ∈ pre, ∀ td ∈ e.txs, (lookup td.txId).isSome = true)
    (hcb : ∀ b e ts, cb b e ts = .ok ())
    (htx : ep.txs = as ++ t :: bs)
    (has : ∀ td ∈ as, (lookup td.txId).isSome = true)
    (ht : lookup t.txId = none) :
    runPage lookup cb none (pre ++ ep :: post) =
      ⟨.fail (.unknownMessage t.txId), pre.map epCall⟩ := by
  induction pre with
  | nil =>
    have hdec : decodeEpoch lookup ep.txs = .error (.unknownMessage t.txId) := by
      rw [htx]
      exact decodeEpoch_unknown lookup as bs t has ht
    simp only [List.nil_append, runPage, stopHit, Bool.false_eq_true,
      if_false, hdec, List.map_nil]
  | cons e pre' ih =>
    have hdec := decodeEpoch_all_known lookup e.txs (hpre e (by simp))
    have ihr := ih (fun q hq td htd => hpre q (by simp [hq]) td htd)
    simp only [List.cons_append, runPage, stopHit, Bool.false_eq_true,
      if_false, hdec, hcb, ihr, List.append_eq, List.map_cons, epCall]

/-- Claim C8: when Each receives both range values with the start at or
beyond the stop, it returns the usage error before any feed request: no
page is fetched, no callback is invoked, and the outcome is a constant
independent of the feed. -/
theorem iterator_invalid_range_no_fetch (lookup : Nat → Option Nat)
    (cb : List TxBatchEntry → Nat → Nat → Except String Unit)
    (pages : List (List Epoch)) (a b : Nat) (h : b ≤ a) :
    iterEach lookup cb pages [a, b] = ⟨.error .usageRange, [], 0, none⟩ := by
  simp [iterEach, h]

/-- Witness for C8 at the invalid range (154, 0) of the range test. -/
theorem iterator_invalid_range_no_fetch_inst :
    (0 : Nat) ≤ 154
    ∧ iterEach lookupEx cbEx pagesEx [154, 0] =
        ⟨.error .usageRange, [], 0, none⟩ :=
  ⟨by decide,
    iterator_invalid_range_no_fetch lookupEx cbEx pagesEx 154 0 (by decide)⟩

/-- Claim C7: when the run reaches an epoch carrying a MessageID the local
Message Registry lookup does not recognize, Each fails immediately with an
error naming that MessageID: the iteration halts at that epoch — the
callback ran only for the earlier epochs — and the transaction is not
silently skipped. -/
theorem iterator_unknown_message_fatal (lookup : Nat → Option Nat)
    (cb : List TxBatchEntry → Nat → Nat → Except String Unit)
    (pre : List Epoch) (ep : Epoch) (post : List Epoch)
    (ps : List (List Epoch)) (as bs : List TxData) (t : TxData)
    (hpre : ∀ e ∈ pre, ∀ td ∈ e.txs, (lookup td.txId).isSome = true)
    (hcb : ∀ b e ts, cb b e ts = .ok ())
    (htx : ep.txs = as ++ t :: bs)
    (has : ∀ td ∈ as, (lookup td.txId).isSome = true)
    (ht : lookup t.txId = none) :
    (iterEach lookup cb ((pre ++ ep :: post) :: ps) []).result
        = .error (.unknownMessage t.txId)
    ∧ (iterEach lookup cb ((pre ++ ep :: post) :: ps) []).calls.length
        = pre.length := by
  have hpg := runPage_unknown lookup cb pre ep post as bs t hpre hcb htx has ht
  constructor
  · simp only [iterEach, runPages, hpg]
  · simp only [iterEach, runPages, hpg, List.length_map]

/-- Witness for C7 at the unknown-message test's input: a single epoch
holding one transaction with unregistered MessageID 1. -/
theorem iterator_unknown_message_fatal_inst :
    ((fun _ => none : Nat → Option Nat) 1 = none)
    ∧ ((iterEach (fun _ => none) cbEx [[⟨1, 1, [⟨1, 0⟩]⟩]] []).result
          = .error (.unknownMessage 1)
      ∧ (iterEach (fun _ => none) cbEx [[⟨1, 1, [⟨1, 0⟩]⟩]] []).calls.length
          = 0) :=
  ⟨rfl,
    iterator_unknown_message_fatal (fun _ => none) cbEx [] ⟨1, 1, [⟨1, 0⟩]⟩
      [] [] [] [] ⟨1, 0⟩ (by simp) (fun _ _ _ => rfl) rfl (by simp) rfl⟩

/-- Claim C9 counterexample: on the stop-range test's feed (epochs numbered
12 and 20) with startTick 0 and stopTick 15, the run ends successfully
after a single callback, for epoch 12 only: epoch 20 — the epoch whose
number meets the stop tick — is never passed to the callback. This
contradicts the claim that the callback fires once per epoch and that
iteration stops only AFTER processing an epoch whose number is at or
beyond stopTick. -/
theorem iterator_stop_boundary_counterexample :
    (iterEach lookupEx cbEx pagesEx [0, 15]).calls = [([(10, 3)], 12, 15)]
    ∧ (iterEach lookupEx cbEx pagesEx [0, 15]).result = .ok ()
    ∧ ((iterEach lookupEx cbEx pagesEx [0, 15]).calls.map
        (fun c => c.2.1)) = [12] :=
  ⟨rfl, rfl, rfl⟩

/-- Claim C9 (amended): Each pages through the feed with the start tick as
the first request's page key, and — under a registry recognizing every
MessageID and a callback that never errors — when a stop tick is supplied
the callback fires exactly once per epoch strictly below the stop tick,
with its fully decoded batch, epoch number and timestamp, in feed order;
the run halts WITHOUT processing the first epoch at or beyond the stop
tick and ends without error, and when the remote honors the page key every
callback's epoch is at or beyond the start tick. With no stop tick the
callback fires once per epoch of the whole feed and exhaustion ends the
run without error. (The original claim had iteration stop after processing
an epoch at or beyond stopTick; the stop-range test pins the behavior to
stopping before that epoch's callback.) -/
theorem iterator_epoch_iteration (lookup : Nat → Option Nat)
    (cb : List TxBatchEntry → Nat → Nat → Except String Unit)
    (pages : List (List Epoch)) (start s : Nat)
    (hknown : ∀ p ∈ pages, ∀ e ∈ p, ∀ td ∈ e.txs, (lookup td.txId).isSome = true)
    (hcb : ∀ b e ts, cb b e ts = .ok ())
    (hse : start < s)
    (hstart : ∀ p ∈ pages, ∀ e ∈ p, start ≤ e.epoch) :
    ((iterEach lookup cb pages [start, s]).calls
        = (pages.flatten.takeWhile (fun e => decide (e.epoch < s))).map epCall
      ∧ (iterEach lookup cb pages [start, s]).result = .ok ()
      ∧ (iterEach lookup cb pages [start, s]).firstKey = some start
      ∧ ∀ c ∈ (iterEach lookup cb pages [start, s]).calls, start ≤ c.2.1)
    ∧ ((iterEach lookup cb pages [start]).calls = pages.flatten.map epCall
      ∧ (iterEach lookup cb pages [start]).result = .ok ()
      ∧ (iterEach lookup cb pages [start]).firstKey = some start) := by
  have hns : ¬ (s ≤ start) := by omega
  obtain ⟨h1, h2⟩ := runPages_known lookup cb s pages hknown hcb
  obtain ⟨h3, h4⟩ := runPages_no_stop lookup cb pages hknown hcb
  have heq : iterEach lookup cb pages [start, s] =
      ⟨(runPages lookup cb (some s) pages).1,
        (runPages lookup cb (some s) pages).2.1,
        (runPages lookup cb (some s) pages).2.2, some start⟩ := by
    simp [iterEach, hns]
  have heq1 : iterEach lookup cb pages [start] =
      ⟨(runPages lookup cb none pages).1,
        (runPages lookup cb none pages).2.1,
        (runPages lookup cb none pages).2.2, some start⟩ := by
    simp [iterEach]
  refine ⟨⟨?_, ?_, ?_, ?_⟩, ?_, ?_, ?_⟩
  · rw [heq]
    exact h2
  · rw [heq]
    exact h1
  · rw [heq]
  · intro c hc
    rw [heq] at hc
    simp only at hc
    rw [h2] at hc
    obtain ⟨e, he, rfl⟩ := List.mem_map.mp hc
    have hef : e ∈ pages.flatten := (List.takeWhile_sublist _).subset he
    obtain ⟨p, hp, hep⟩ := List.mem_flatten.mp hef
    exact hstart p hp e hep
  · rw [heq1]
    exact h4
  · rw [heq1]
    exact h3
  · rw [heq1]

/-- Witness for the amended C9 at the stop-range test's feed with
startTick 0, stopTick 15 (and the stop tick absent). -/
theorem iterator_epoch_iteration_inst :
    (0 : Nat) < 15
    ∧ (∀ p ∈ pagesEx, ∀ e ∈ p, ∀ td ∈ e.txs, (lookupEx td.txId).isSome = true)
    ∧ (((iterEach lookupEx cbEx pagesEx [0, 15]).calls
          = (pagesEx.flatten.takeWhile (fun e => decide (e.epoch < 15))).map epCall
        ∧ (iterEach lookupEx cbEx pagesEx [0, 15]).result = .ok ()
        ∧ (iterEach lookupEx cbEx pagesEx [0, 15]).firstKey = some 0
        ∧ ∀ c ∈ (iterEach lookupEx cbEx pagesEx [0, 15]).calls, 0 ≤ c.2.1)
      ∧ ((iterEach lookupEx cbEx pagesEx [0]).calls = pagesEx.flatten.map epCall
        ∧ (iterEach lookupEx cbEx pagesEx [0]).result = .ok ()
        ∧ (iterEach lookupEx cbEx pagesEx [0]).firstKey = some 0)) :=
  ⟨by decide, by decide,
    iterator_epoch_iteration lookupEx cbEx pagesEx 0 15 (by decide)
      (fun _ _ _ => rfl) (by decide) (by decide)⟩

end Theorems

end WorldEngine
